import Mathlib

/-!
# Verification of the `oui-lookup` MAC-vendor resolver

A shallow embedding of the program's core (src/oui.rs, src/db.rs, src/main.rs):
the MAC-address / prefix codec, the `manuf` line parser, the database builder,
the binary-search lookup, and the cache-file save path.  Machine integers
(`u8`, `u64`) are modelled as `Nat`; all the arithmetic stays far below `2^64`
on the domains the source's own assertions delimit, which is noted wherever it
matters.  Strings are modelled as `List Char`.
-/

/-- Hexadecimal digit value of a character, if it is an ASCII hex digit
(models `u8::is_ascii_hexdigit` together with the digit's value). -/
def hexDigitVal? (c : Char) : Option Nat :=
  if '0' ≤ c ∧ c ≤ '9' then some (c.toNat - '0'.toNat)
  else if 'a' ≤ c ∧ c ≤ 'f' then some (c.toNat - 'a'.toNat + 10)
  else if 'A' ≤ c ∧ c ≤ 'F' then some (c.toNat - 'A'.toNat + 10)
  else none

/-- Decimal digit value of a character, if it is an ASCII digit. -/
def decDigitVal? (c : Char) : Option Nat :=
  if '0' ≤ c ∧ c ≤ '9' then some (c.toNat - '0'.toNat) else none

/-- Whitespace, as `char::is_whitespace` decides it on the ASCII range (the
Unicode-only whitespace code points never matter for the properties below). -/
def isWs (c : Char) : Bool :=
  c = ' ' || c = '\t' || c = '\n' || c = '\r' || c = '\x0b' || c = '\x0c'

/-- Model of Rust's `str::split(':')`: the list of (possibly empty) segments
between colons.  Always returns at least one segment. -/
def splitColon : List Char → List (List Char)
  | [] => [[]]
  | c :: rest =>
    if c = ':' then [] :: splitColon rest
    else
      match splitColon rest with
      | [] => [[c]]
      | s :: ss => (c :: s) :: ss

/-- Model of `u8::from_str_radix(bs, 16)`: every character must be a hex digit,
the digit string must be nonempty, and the value must fit in a `u8`.  (The
source's checked accumulation fails exactly when the final value would exceed
255, because the accumulator is monotone.  A leading `+`, which
`from_str_radix` would accept, cannot reach this call: `MacAddress::parse`
pre-filters its input to hex digits and colons.) -/
def parseHexOctet (cs : List Char) : Option Nat :=
  match cs.mapM hexDigitVal? with
  | none => none
  | some ds =>
    if ds.isEmpty then none
    else
      let v := ds.foldl (fun a d => 16 * a + d) 0
      if v < 256 then some v else none

/-- The source's parse loop over the colon segments, which fails as soon as one
octet fails to parse. -/
def parseHexOctets : List (List Char) → Option (List Nat)
  | [] => some []
  | s :: rest =>
    match parseHexOctet s, parseHexOctets rest with
    | some v, some vs => some (v :: vs)
    | _, _ => none

/-- `MacAddress([u8; 6])`: six octets, one `Nat` per byte. -/
structure MacAddress where
  o0 : Nat
  o1 : Nat
  o2 : Nat
  o3 : Nat
  o4 : Nat
  o5 : Nat
deriving DecidableEq

/-- Every octet fits in a byte (automatic in Rust's `[u8; 6]`, a side condition
of the `Nat` model). -/
def MacAddress.Valid (a : MacAddress) : Prop :=
  a.o0 < 256 ∧ a.o1 < 256 ∧ a.o2 < 256 ∧ a.o3 < 256 ∧ a.o4 < 256 ∧ a.o5 < 256

instance (a : MacAddress) : Decidable a.Valid := by
  unfold MacAddress.Valid
  infer_instance

/-- The source's `[0u8; 6]` array filled left to right from the parsed octets:
missing trailing octets stay zero. -/
def MacAddress.ofOctets (l : List Nat) : MacAddress :=
  ⟨l.getD 0 0, l.getD 1 0, l.getD 2 0, l.getD 3 0, l.getD 4 0, l.getD 5 0⟩

/-- `MacAddress::parse` (src/oui.rs:52): reject any character that is not a hex
digit or a colon, split on colons, reject a seventh octet, parse each octet in
radix 16, zero-fill missing trailing octets. -/
def MacAddress.parse (s : List Char) : Option MacAddress :=
  if s.all (fun c => (hexDigitVal? c).isSome || c = ':') then
    let segs := splitColon s
    if segs.length ≤ 6 then
      match parseHexOctets segs with
      | some os => some (MacAddress.ofOctets os)
      | none => none
    else none
  else none

/-- `MacAddress::to_u64` (src/oui.rs:71): the six octets placed big-endian in
the low 48 bits of a `u64` (byte positions 2..8 of `u64::from_be_bytes`). -/
def MacAddress.to_u64 (a : MacAddress) : Nat :=
  a.o0 * 2 ^ 40 + a.o1 * 2 ^ 32 + a.o2 * 2 ^ 24 + a.o3 * 2 ^ 16 + a.o4 * 2 ^ 8 + a.o5

/-- `MacAddress::from_u64` (src/oui.rs:78): bytes 2..8 of the big-endian
representation of the value. -/
def MacAddress.from_u64 (v : Nat) : MacAddress :=
  ⟨v / 2 ^ 40 % 256, v / 2 ^ 32 % 256, v / 2 ^ 24 % 256, v / 2 ^ 16 % 256, v / 2 ^ 8 % 256,
    v % 256⟩

/-- The derived `Ord` on `MacAddress`, i.e. lexicographic comparison of the six
byte-array elements. -/
def MacAddress.cmp (a b : MacAddress) : Ordering :=
  (compare a.o0 b.o0).then ((compare a.o1 b.o1).then ((compare a.o2 b.o2).then
    ((compare a.o3 b.o3).then ((compare a.o4 b.o4).then (compare a.o5 b.o5)))))

/-- Octet by index, for stating the zero-padding behaviour of `parse`. -/
def MacAddress.octet (a : MacAddress) : Fin 6 → Nat
  | ⟨0, _⟩ => a.o0
  | ⟨1, _⟩ => a.o1
  | ⟨2, _⟩ => a.o2
  | ⟨3, _⟩ => a.o3
  | ⟨4, _⟩ => a.o4
  | ⟨5, _⟩ => a.o5

/-- `MacPrefix` (src/oui.rs:87): prefix length in bits 56..63, the masked MAC
address in bits 0..47, bits 48..55 unused. -/
structure MacPrefix where
  val : Nat
deriving DecidableEq

/-- `MacPrefix::mask` (src/oui.rs:142): `((1u64 << prefix_len) - 1) << (48 - prefix_len)`.
The source guards this with `debug_assert!(prefix_len <= 48)`; on that asserted
domain the `u64` arithmetic never overflows and the `Nat` truncated subtraction
agrees with the `u8` subtraction, so the translation is exact there. -/
def MacPrefix.mask (len : Nat) : Nat := (2 ^ len - 1) <<< (48 - len)

/-- `MacPrefix::from_parts` (src/oui.rs:160):
`((prefix_len as u64) << 56) | (mac.to_u64() & mask(prefix_len))`. -/
def MacPrefix.from_parts (mac : MacAddress) (len : Nat) : MacPrefix :=
  ⟨(len <<< 56) ||| (mac.to_u64 &&& MacPrefix.mask len)⟩

/-- `MacPrefix::mac` (src/oui.rs:167): the low 48 bits, decoded. -/
def MacPrefix.mac (p : MacPrefix) : MacAddress :=
  MacAddress.from_u64 (p.val &&& 0xffffffffffff)

/-- `MacPrefix::prefix_len` (src/oui.rs:173): `(self.val >> 56) as u8`. -/
def MacPrefix.prefix_len (p : MacPrefix) : Nat := (p.val >>> 56) % 256

/-- `MacPrefix::matches` (src/oui.rs:178). -/
def MacPrefix.matches (p : MacPrefix) (mac : MacAddress) : Bool :=
  let m := MacPrefix.mask p.prefix_len
  (mac.to_u64 &&& m) == (p.val &&& m)

/-- The `Ord` instance for `MacPrefix` (src/oui.rs:126): compares the MAC
address portions only, ignoring the prefix length. -/
def MacPrefix.cmp (p q : MacPrefix) : Ordering := MacAddress.cmp p.mac q.mac

/-- Model of `str::parse::<u8>`: an optional leading `+`, then a nonempty run
of decimal digits whose value fits in a `u8`. -/
def parseU8Dec (cs : List Char) : Option Nat :=
  let cs := match cs with
    | '+' :: rest => rest
    | _ => cs
  match cs.mapM decDigitVal? with
  | none => none
  | some ds =>
    if ds.isEmpty then none
    else
      let v := ds.foldl (fun a d => 10 * a + d) 0
      if v < 256 then some v else none

/-- Model of `str::split_once('/')`: split at the first slash, if any. -/
def splitOnceSlash : List Char → Option (List Char × List Char)
  | [] => none
  | c :: rest =>
    if c = '/' then some ([], rest)
    else
      match splitOnceSlash rest with
      | some (a, b) => some (c :: a, b)
      | none => none

/-- The first stage of `MacPrefix::parse` (src/oui.rs:152-155): the address
text together with the prefix length the source computes before any masking —
`p.parse::<u8>()` after a `/`, or the default 24 when no slash is present. -/
def MacPrefix.parseLen (s : List Char) : Option (List Char × Nat) :=
  match splitOnceSlash s with
  | some (m, p) =>
    match parseU8Dec p with
    | some n => some (m, n)
    | none => none
  | none => some (s, 24)

/-- `MacPrefix::parse` (src/oui.rs:151).  The source forwards any parsed
length (any `u8`, up to 255) straight into `from_parts`; for a length above 48
the `debug_assert!(prefix_len <= 48)` in `mask` fails and the shift arithmetic
overflows, so the model renders that path as a parse failure (the debug-build
panic).  See the C2 analysis. -/
def MacPrefix.parse (s : List Char) : Option MacPrefix :=
  match MacPrefix.parseLen s with
  | none => none
  | some (ms, len) =>
    match MacAddress.parse ms with
    | none => none
    | some mac => if len ≤ 48 then some (MacPrefix.from_parts mac len) else none

/-- A vendor record (src/oui.rs:185). -/
structure Oui where
  mac_prefix : MacPrefix
  short_name : List Char
  long_name : List Char
deriving DecidableEq

/-- `Oui::mac` (src/oui.rs:217). -/
def Oui.mac (o : Oui) : MacAddress := o.mac_prefix.mac

/-- The `Ord` instance for `Oui` (src/oui.rs:236): delegates to the prefix
comparison, so names are ignored. -/
def Oui.cmp (a b : Oui) : Ordering := MacPrefix.cmp a.mac_prefix b.mac_prefix

/-- `Oui::from_manuf` (src/oui.rs:194): trim leading whitespace, drop comment
lines, split off the prefix token at the first whitespace, skip the whitespace
run, split off the short name, skip the next whitespace run; the rest of the
line is the long name.  Any missing split point yields `none`. -/
def Oui.from_manuf (s : List Char) : Option Oui :=
  let t := s.dropWhile isWs
  if t.head? = some '#' then none
  else
    match t.findIdx? isWs with
    | none => none
    | some i =>
      let mac_s := t.take i
      let r1 := t.drop i
      match MacPrefix.parse mac_s with
      | none => none
      | some mp =>
        match r1.findIdx? (fun c => !isWs c) with
        | none => none
        | some j =>
          let r2 := r1.drop j
          match r2.findIdx? isWs with
          | none => none
          | some k =>
            let short := r2.take k
            let r3 := r2.drop k
            match r3.findIdx? (fun c => !isWs c) with
            | none => none
            | some m => some ⟨mp, short, r3.drop m⟩

/-- The Rust `Vec::sort` comparison as a Boolean "not greater" relation; Rust's
sort is a stable ascending sort with respect to `Ord::cmp`. -/
def ouiLE (a b : Oui) : Bool := Oui.cmp a b != Ordering.gt

/-- The database build step of `download_fresh` (src/db.rs:157-158): parse
every line independently, drop failures, then stable-sort (Rust `sort` is
stable merge sort; `List.mergeSort` is the stable sort of the model). -/
def buildDb (lines : List (List Char)) : List Oui :=
  (lines.filterMap Oui.from_manuf).mergeSort ouiLE

/-- Placeholder record used only as the `getD` default inside the search; the
search never reads it while the probed index is in bounds. -/
def defaultOui : Oui := ⟨⟨0⟩, [], []⟩

/-- The loop of `slice::binary_search_by`: probe `lo + (hi - lo) / 2`, narrow
to the left or right half, or return the probed index on `Equal`.  The fuel
argument makes the recursion structural; `fuel ≥ hi - lo` suffices, and the
top-level wrapper supplies `db.length`. -/
def bsAux (f : Oui → Ordering) (db : List Oui) : Nat → Nat → Nat → Except Nat Nat
  | 0, lo, _ => Except.error lo
  | fuel + 1, lo, hi =>
    if lo < hi then
      let mid := lo + (hi - lo) / 2
      match f (db.getD mid defaultOui) with
      | Ordering.lt => bsAux f db fuel (mid + 1) hi
      | Ordering.gt => bsAux f db fuel lo mid
      | Ordering.eq => Except.ok mid
    else Except.error lo

/-- `slice::binary_search_by` over the whole record vector. -/
def binary_search_by (db : List Oui) (f : Oui → Ordering) : Except Nat Nat :=
  bsAux f db db.length 0 db.length

/-- The lookup comparator from `run` (src/main.rs:48-55): `Equal` when the
record's prefix matches the query, otherwise the numeric comparison of the
record's (masked) address against the query address. -/
def lookupCmp (q : MacAddress) (o : Oui) : Ordering :=
  if o.mac_prefix.matches q then Ordering.eq
  else MacAddress.cmp o.mac q

/-- One query of the lookup loop in `run`. -/
def lookup (db : List Oui) (q : MacAddress) : Except Nat Nat :=
  binary_search_by db (lookupCmp q)

/-- The 48-bit value of the (masked) address stored in a prefix — the base of
the address range the prefix covers. -/
def MacPrefix.base (p : MacPrefix) : Nat := p.mac.to_u64

/-- The number of addresses covered by a prefix: `2 ^ (48 - L)`. -/
def MacPrefix.size (p : MacPrefix) : Nat := 2 ^ (48 - p.prefix_len)

/-- Well-formedness of a packed prefix, as `from_parts` establishes it for a
length of at most 48: the length byte and the 48-bit base make up the whole
value, and the base's bits below the prefix length are zero. -/
def MacPrefix.WF (p : MacPrefix) : Prop :=
  p.prefix_len ≤ 48 ∧ p.val = p.prefix_len * 2 ^ 56 + p.base ∧
    p.base % 2 ^ (48 - p.prefix_len) = 0

instance (p : MacPrefix) : Decidable p.WF := by
  unfold MacPrefix.WF
  infer_instance

/-- The top `L` bits of an address's 48-bit value (the spec's notion in C3). -/
def MacAddress.topBits (L : Nat) (a : MacAddress) : Nat := a.to_u64 >>> (48 - L)

/-- The database sortedness invariant: ascending by address key. -/
def SortedByKey (db : List Oui) : Prop :=
  db.Pairwise (fun a b => a.mac.to_u64 ≤ b.mac.to_u64)

/-- The spec's §3 invariant: no two records' covered address ranges overlap. -/
def NoOverlap (db : List Oui) : Prop :=
  db.Pairwise (fun a b =>
    a.mac_prefix.base + a.mac_prefix.size ≤ b.mac_prefix.base ∨
    b.mac_prefix.base + b.mac_prefix.size ≤ a.mac_prefix.base)

/-- One attempted serialization into the cache file (`postcard::to_io` writing
into the freshly created `File`): either it completes, leaving the full
encoding, or it fails after some partially written bytes. -/
inductive WriteAttempt where
  | success (bytes : List Nat) : WriteAttempt
  | failAfter (written : List Nat) : WriteAttempt

/-- The cache file's state on disk: absent, or present with contents. -/
abbrev FsFile := Option (List Nat)

/-- `File::create`: the file exists afterwards and is truncated to empty. -/
def fsCreate (_fs : FsFile) : FsFile := some []

/-- Appending written bytes to an existing file. -/
def fsWrite (bytes : List Nat) (fs : FsFile) : FsFile :=
  match fs with
  | some old => some (old ++ bytes)
  | none => none

/-- `std::fs::remove_file`. -/
def fsRemove (_fs : FsFile) : FsFile := none

/-- `Cache::save` (src/db.rs:47-60) acting on the single cache path: create
(truncate) the file, stream the encoding into it; on a mid-write failure,
delete the incomplete file and report the error.  Returns the new file state
and `Except.ok`/`Except.error` as the source returns `Ok`/`Err`. -/
def Cache.save (att : WriteAttempt) (fs : FsFile) : FsFile × Except Unit Unit :=
  let created := fsCreate fs
  match att with
  | WriteAttempt.success bytes => (fsWrite bytes created, Except.ok ())
  | WriteAttempt.failAfter written => (fsRemove (fsWrite written created), Except.error ())

/-- The read step of `Cache::load` (src/db.rs:36-45): a missing file yields
`none`, a present file yields exactly the bytes the last writer left. -/
def Cache.load (fs : FsFile) : Option (List Nat) := fs

/-- Spec wording of C5: an octet of one or two hex digits. -/
def specOctet12 (cs : List Char) : Bool :=
  (cs.length = 1 || cs.length = 2) && cs.all (fun c => (hexDigitVal? c).isSome)

/-- Spec wording of C5: 1-6 colon-separated octets of 1-2 hex digits each
(`splitColon` always yields at least one segment). -/
def specAddrOk (s : List Char) : Bool :=
  (splitColon s).length ≤ 6 && (splitColon s).all specOctet12

/-- The amended C5 octet condition: a nonempty run of hex digits whose value
fits in a byte (leading zeros allowed, hence possibly more than two digits). -/
def amendedOctetOk (cs : List Char) : Bool :=
  !cs.isEmpty && cs.all (fun c => (hexDigitVal? c).isSome) &&
    decide (cs.foldl (fun a c => 16 * a + (hexDigitVal? c).getD 0) 0 < 256)

/-! ## Arithmetic facts about the address codec -/

theorem MacAddress.to_u64_lt {a : MacAddress} (h : a.Valid) : a.to_u64 < 2 ^ 48 := by
  obtain ⟨h0, h1, h2, h3, h4, h5⟩ := h
  unfold MacAddress.to_u64
  omega

theorem MacAddress.from_u64_valid (v : Nat) : (MacAddress.from_u64 v).Valid := by
  simp only [MacAddress.from_u64, MacAddress.Valid]
  omega

theorem MacAddress.to_u64_from_u64 (v : Nat) :
    (MacAddress.from_u64 v).to_u64 = v % 2 ^ 48 := by
  simp only [MacAddress.from_u64, MacAddress.to_u64]
  omega

theorem MacAddress.from_u64_to_u64 {a : MacAddress} (h : a.Valid) :
    MacAddress.from_u64 a.to_u64 = a := by
  obtain ⟨o0, o1, o2, o3, o4, o5⟩ := a
  simp only [MacAddress.Valid] at h
  simp only [MacAddress.from_u64, MacAddress.to_u64, MacAddress.mk.injEq]
  omega

theorem MacAddress.to_u64_inj {a b : MacAddress} (ha : a.Valid) (hb : b.Valid)
    (h : a.to_u64 = b.to_u64) : a = b := by
  have h2 := MacAddress.from_u64_to_u64 ha
  rw [h, MacAddress.from_u64_to_u64 hb] at h2
  exact h2.symm

/-- Positional comparison: comparing the high digit and tie-breaking with the
low digits is numeric comparison in base `K`. -/
theorem compare_then_base (K x y : Nat) {r1 r2 : Nat} (h1 : r1 < K) (h2 : r2 < K) :
    (compare x y).then (compare r1 r2) = compare (x * K + r1) (y * K + r2) := by
  rcases Nat.lt_trichotomy x y with h | h | h
  · have hlt : x * K + r1 < y * K + r2 :=
      calc x * K + r1 < x * K + K := by omega
        _ = (x + 1) * K := by ring
        _ ≤ y * K := Nat.mul_le_mul_right K h
        _ ≤ y * K + r2 := Nat.le_add_right _ _
    rw [Nat.compare_eq_lt.mpr h, Nat.compare_eq_lt.mpr hlt]
    rfl
  · subst h
    have he : compare x x = Ordering.eq := Nat.compare_eq_eq.mpr rfl
    rw [he]
    have ht : (Ordering.eq).then (compare r1 r2) = compare r1 r2 := rfl
    rw [ht]
    rcases Nat.lt_trichotomy r1 r2 with h | h | h
    · rw [Nat.compare_eq_lt.mpr h, Nat.compare_eq_lt.mpr (by omega : x * K + r1 < x * K + r2)]
    · subst h
      rw [Nat.compare_eq_eq.mpr rfl, Nat.compare_eq_eq.mpr rfl]
    · rw [Nat.compare_eq_gt.mpr h, Nat.compare_eq_gt.mpr (by omega : x * K + r2 < x * K + r1)]
  · have hgt : y * K + r2 < x * K + r1 :=
      calc y * K + r2 < y * K + K := by omega
        _ = (y + 1) * K := by ring
        _ ≤ x * K := Nat.mul_le_mul_right K h
        _ ≤ x * K + r1 := Nat.le_add_right _ _
    rw [Nat.compare_eq_gt.mpr h, Nat.compare_eq_gt.mpr hgt]
    rfl

/-- The derived lexicographic byte comparison coincides with numeric comparison
of the packed 48-bit values, for in-range octets. -/
theorem MacAddress.cmp_eq_compare {a b : MacAddress} (ha : a.Valid) (hb : b.Valid) :
    MacAddress.cmp a b = compare a.to_u64 b.to_u64 := by
  obtain ⟨a0, a1, a2, a3, a4, a5⟩ := a
  obtain ⟨b0, b1, b2, b3, b4, b5⟩ := b
  simp only [MacAddress.Valid] at ha hb
  obtain ⟨ha0, ha1, ha2, ha3, ha4, ha5⟩ := ha
  obtain ⟨hb0, hb1, hb2, hb3, hb4, hb5⟩ := hb
  simp only [MacAddress.cmp, MacAddress.to_u64]
  rw [compare_then_base (2 ^ 8) a4 b4 ha5 hb5]
  have hA4 : a4 * 2 ^ 8 + a5 < 2 ^ 16 := by omega
  have hB4 : b4 * 2 ^ 8 + b5 < 2 ^ 16 := by omega
  rw [compare_then_base (2 ^ 16) a3 b3 hA4 hB4]
  have hA3 : a3 * 2 ^ 16 + (a4 * 2 ^ 8 + a5) < 2 ^ 24 := by omega
  have hB3 : b3 * 2 ^ 16 + (b4 * 2 ^ 8 + b5) < 2 ^ 24 := by omega
  rw [compare_then_base (2 ^ 24) a2 b2 hA3 hB3]
  have hA2 : a2 * 2 ^ 24 + (a3 * 2 ^ 16 + (a4 * 2 ^ 8 + a5)) < 2 ^ 32 := by omega
  have hB2 : b2 * 2 ^ 24 + (b3 * 2 ^ 16 + (b4 * 2 ^ 8 + b5)) < 2 ^ 32 := by omega
  rw [compare_then_base (2 ^ 32) a1 b1 hA2 hB2]
  have hA1 : a1 * 2 ^ 32 + (a2 * 2 ^ 24 + (a3 * 2 ^ 16 + (a4 * 2 ^ 8 + a5))) < 2 ^ 40 := by omega
  have hB1 : b1 * 2 ^ 32 + (b2 * 2 ^ 24 + (b3 * 2 ^ 16 + (b4 * 2 ^ 8 + b5))) < 2 ^ 40 := by omega
  rw [compare_then_base (2 ^ 40) a0 b0 hA1 hB1]
  have eA : a0 * 2 ^ 40 + (a1 * 2 ^ 32 + (a2 * 2 ^ 24 + (a3 * 2 ^ 16 + (a4 * 2 ^ 8 + a5)))) =
      a0 * 2 ^ 40 + a1 * 2 ^ 32 + a2 * 2 ^ 24 + a3 * 2 ^ 16 + a4 * 2 ^ 8 + a5 := by omega
  have eB : b0 * 2 ^ 40 + (b1 * 2 ^ 32 + (b2 * 2 ^ 24 + (b3 * 2 ^ 16 + (b4 * 2 ^ 8 + b5)))) =
      b0 * 2 ^ 40 + b1 * 2 ^ 32 + b2 * 2 ^ 24 + b3 * 2 ^ 16 + b4 * 2 ^ 8 + b5 := by omega
  rw [eA, eB]

/-! ## The prefix mask and the packed representation -/

theorem MacPrefix.testBit_mask {len : Nat} (h : len ≤ 48) (i : Nat) :
    (MacPrefix.mask len).testBit i = true ↔ (48 - len ≤ i ∧ i < 48) := by
  unfold MacPrefix.mask
  rw [Nat.testBit_shiftLeft, Nat.testBit_two_pow_sub_one]
  simp only [ge_iff_le, Bool.and_eq_true, decide_eq_true_eq]
  omega

/-- Division-based reading of the mask: `a &&& mask L` zeroes the low
`48 - L` bits of a 48-bit value. -/
theorem and_mask_eq_div_mul {a len : Nat} (ha : a < 2 ^ 48) (h : len ≤ 48) :
    a &&& MacPrefix.mask len = a / 2 ^ (48 - len) * 2 ^ (48 - len) := by
  have hr : a / 2 ^ (48 - len) * 2 ^ (48 - len) = (a >>> (48 - len)) <<< (48 - len) := by
    rw [Nat.shiftLeft_eq, Nat.shiftRight_eq_div_pow]
  rw [hr]
  apply Nat.eq_of_testBit_eq
  intro i
  rw [← Bool.coe_iff_coe]
  rw [Nat.testBit_and, Nat.testBit_shiftLeft, Nat.testBit_shiftRight]
  simp only [Bool.and_eq_true, decide_eq_true_eq, ge_iff_le]
  constructor
  · rintro ⟨hai, hmi⟩
    rw [MacPrefix.testBit_mask h] at hmi
    refine ⟨hmi.1, ?_⟩
    have he : 48 - len + (i - (48 - len)) = i := by omega
    rw [he]
    exact hai
  · rintro ⟨hle, hai⟩
    by_cases h48 : i < 48
    · have he : 48 - len + (i - (48 - len)) = i := by omega
      rw [he] at hai
      exact ⟨hai, (MacPrefix.testBit_mask h i).mpr ⟨hle, h48⟩⟩
    · have he : 48 - len + (i - (48 - len)) = i := by omega
      rw [he] at hai
      have hf : a.testBit i = false :=
        Nat.testBit_lt_two_pow (lt_of_lt_of_le ha (Nat.pow_le_pow_right (by omega) (by omega)))
      rw [hai] at hf
      exact Bool.noConfusion hf

/-- The mask only looks at the low 48 bits of its operand. -/
theorem and_mask_drop_high (a : Nat) {len : Nat} (h : len ≤ 48) :
    a &&& MacPrefix.mask len = a % 2 ^ 48 &&& MacPrefix.mask len := by
  apply Nat.eq_of_testBit_eq
  intro i
  rw [← Bool.coe_iff_coe]
  rw [Nat.testBit_and, Nat.testBit_and, Nat.testBit_mod_two_pow]
  simp only [Bool.and_eq_true, decide_eq_true_eq]
  constructor
  · rintro ⟨hai, hmi⟩
    have h48 : i < 48 := ((MacPrefix.testBit_mask h i).mp hmi).2
    exact ⟨⟨h48, hai⟩, hmi⟩
  · rintro ⟨⟨_, hai⟩, hmi⟩
    exact ⟨hai, hmi⟩

/-- A left shift or-ed with a value fitting below the shift is an addition. -/
theorem shiftLeft_or_eq_add {a b k : Nat} (hb : b < 2 ^ k) :
    (a <<< k) ||| b = a * 2 ^ k + b := by
  rw [show a * 2 ^ k + b = 2 ^ k * a + b from by ring]
  apply Nat.eq_of_testBit_eq
  intro i
  rw [← Bool.coe_iff_coe]
  rw [Nat.testBit_or, Nat.testBit_shiftLeft, Nat.testBit_mul_pow_two_add a hb]
  simp only [Bool.or_eq_true, Bool.and_eq_true, decide_eq_true_eq, ge_iff_le]
  by_cases h1 : i < k
  · rw [if_pos h1]
    constructor
    · rintro (⟨hk, _⟩ | hbi)
      · exact absurd hk (by omega)
      · exact hbi
    · intro hbi
      exact Or.inr hbi
  · rw [if_neg h1]
    have hbf : b.testBit i = false :=
      Nat.testBit_lt_two_pow (lt_of_lt_of_le hb (Nat.pow_le_pow_right (by omega) (by omega)))
    constructor
    · rintro (⟨_, hai⟩ | hbi)
      · exact hai
      · rw [hbi] at hbf
        exact Bool.noConfusion hbf
    · intro hai
      exact Or.inl ⟨by omega, hai⟩

theorem MacPrefix.from_parts_val {m : MacAddress} (hm : m.Valid) {len : Nat} :
    (MacPrefix.from_parts m len).val = len * 2 ^ 56 + (m.to_u64 &&& MacPrefix.mask len) := by
  unfold MacPrefix.from_parts
  exact shiftLeft_or_eq_add
    (lt_of_le_of_lt Nat.and_le_left (lt_trans (MacAddress.to_u64_lt hm) (by norm_num)))

theorem MacPrefix.from_parts_prefix_len {m : MacAddress} (hm : m.Valid) {len : Nat}
    (h : len ≤ 48) : (MacPrefix.from_parts m len).prefix_len = len := by
  unfold MacPrefix.prefix_len
  rw [MacPrefix.from_parts_val hm, Nat.shiftRight_eq_div_pow]
  have hx : m.to_u64 &&& MacPrefix.mask len < 2 ^ 56 :=
    lt_of_le_of_lt Nat.and_le_left (lt_trans (MacAddress.to_u64_lt hm) (by norm_num))
  omega

theorem MacPrefix.base_lt (p : MacPrefix) : p.base < 2 ^ 48 := by
  unfold MacPrefix.base MacPrefix.mac
  rw [MacAddress.to_u64_from_u64]
  exact Nat.mod_lt _ (by norm_num)

theorem MacPrefix.mac_valid (p : MacPrefix) : p.mac.Valid := MacAddress.from_u64_valid _

theorem MacPrefix.from_parts_base {m : MacAddress} (hm : m.Valid) {len : Nat} :
    (MacPrefix.from_parts m len).base = m.to_u64 &&& MacPrefix.mask len := by
  unfold MacPrefix.base MacPrefix.mac
  rw [MacAddress.to_u64_from_u64, MacPrefix.from_parts_val hm]
  have hx : m.to_u64 &&& MacPrefix.mask len < 2 ^ 48 :=
    lt_of_le_of_lt Nat.and_le_left (MacAddress.to_u64_lt hm)
  rw [show (0xffffffffffff : Nat) = 2 ^ 48 - 1 from by norm_num,
    Nat.and_pow_two_sub_one_eq_mod]
  omega

theorem MacPrefix.from_parts_WF {m : MacAddress} (hm : m.Valid) {len : Nat} (h : len ≤ 48) :
    (MacPrefix.from_parts m len).WF := by
  unfold MacPrefix.WF
  refine ⟨?_, ?_, ?_⟩
  · rw [MacPrefix.from_parts_prefix_len hm h]
    exact h
  · rw [MacPrefix.from_parts_val hm, MacPrefix.from_parts_prefix_len hm h,
      MacPrefix.from_parts_base hm]
  · rw [MacPrefix.from_parts_base hm, MacPrefix.from_parts_prefix_len hm h,
      and_mask_eq_div_mul (MacAddress.to_u64_lt hm) h]
    exact Nat.mul_mod_left _ _

/-- Rounding down to a multiple of `s` hits `b` exactly on `[b, b + s)`. -/
theorem div_mul_eq_iff {x b s : Nat} (hs : 0 < s) (hb : b % s = 0) :
    x / s * s = b ↔ (b ≤ x ∧ x < b + s) := by
  have hdm := Nat.div_add_mod x s
  have hml : x % s < s := Nat.mod_lt x hs
  constructor
  · intro he
    have h1 : b ≤ x := by
      rw [← he]
      exact Nat.div_mul_le_self x s
    have h2 : x < b + s := by
      have hc : s * (x / s) = b := by
        rw [← he]
        ring
      omega
    exact ⟨h1, h2⟩
  · rintro ⟨h1, h2⟩
    obtain ⟨q, hq⟩ := Nat.dvd_of_mod_eq_zero hb
    subst hq
    have hdiv : x / s = q := by
      apply Nat.div_eq_of_lt_le
      · calc q * s = s * q := by ring
          _ ≤ x := h1
      · calc x < s * q + s := h2
          _ = (q + 1) * s := by ring
    rw [hdiv]
    ring

/-- The semantic content of `matches` for a well-formed prefix: membership of
the query's 48-bit value in the half-open range `[base, base + size)`. -/
theorem MacPrefix.matches_iff_range {p : MacPrefix} (hw : p.WF) {x : MacAddress}
    (hx : x.Valid) :
    p.matches x = true ↔ (p.base ≤ x.to_u64 ∧ x.to_u64 < p.base + p.size) := by
  obtain ⟨hL, hval, hmod⟩ := hw
  have hbase48 : p.base < 2 ^ 48 := MacPrefix.base_lt p
  have hx48 : x.to_u64 < 2 ^ 48 := MacAddress.to_u64_lt hx
  unfold MacPrefix.matches MacPrefix.size
  simp only [beq_iff_eq]
  have hpv : p.val &&& MacPrefix.mask p.prefix_len = p.base := by
    rw [and_mask_drop_high _ hL]
    have hm48 : p.val % 2 ^ 48 = p.base := by omega
    rw [hm48, and_mask_eq_div_mul hbase48 hL]
    exact Nat.div_mul_cancel (Nat.dvd_of_mod_eq_zero hmod)
  rw [hpv, and_mask_eq_div_mul hx48 hL]
  exact div_mul_eq_iff (Nat.two_pow_pos _) hmod

theorem parseHexOctet_lt {cs : List Char} {v : Nat} (h : parseHexOctet cs = some v) :
    v < 256 := by
  unfold parseHexOctet at h
  split at h
  · cases h
  · split at h
    · cases h
    · dsimp only at h
      split at h
      · injection h with h2
        omega
      · cases h

theorem parseHexOctets_lt {segs : List (List Char)} {os : List Nat}
    (h : parseHexOctets segs = some os) : ∀ v ∈ os, v < 256 := by
  induction segs generalizing os with
  | nil =>
    intro v hv
    unfold parseHexOctets at h
    injection h with h2
    subst h2
    cases hv
  | cons s rest ih =>
    intro v hv
    unfold parseHexOctets at h
    rcases h1 : parseHexOctet s with _ | v1 <;> rw [h1] at h
    · cases h
    · rcases h2 : parseHexOctets rest with _ | vs <;> rw [h2] at h
      · cases h
      · injection h with h3
        subst h3
        rcases List.mem_cons.mp hv with rfl | hv
        · exact parseHexOctet_lt h1
        · exact ih h2 v hv

theorem getD_lt_of_all {l : List Nat} (hall : ∀ v ∈ l, v < 256) (i : Nat) :
    l.getD i 0 < 256 := by
  rw [List.getD_eq_getElem?_getD]
  rcases hg : l[i]? with _ | v
  · simp
  · have hm : v ∈ l := List.getElem?_mem hg
    simp only [Option.getD_some]
    exact hall v hm

theorem MacAddress.ofOctets_valid {l : List Nat} (hall : ∀ v ∈ l, v < 256) :
    (MacAddress.ofOctets l).Valid := by
  unfold MacAddress.ofOctets MacAddress.Valid
  exact ⟨getD_lt_of_all hall 0, getD_lt_of_all hall 1, getD_lt_of_all hall 2,
    getD_lt_of_all hall 3, getD_lt_of_all hall 4, getD_lt_of_all hall 5⟩

/-- Successful address parses, unpacked. -/
theorem MacAddress.parse_eq_some {s : List Char} {a : MacAddress}
    (h : MacAddress.parse s = some a) :
    ∃ os, parseHexOctets (splitColon s) = some os ∧ a = MacAddress.ofOctets os ∧
      (splitColon s).length ≤ 6 ∧
      s.all (fun c => (hexDigitVal? c).isSome || c = ':') = true := by
  unfold MacAddress.parse at h
  split at h
  · dsimp only at h
    split at h
    · split at h
      · rename_i os hos
        injection h with h2
        exact ⟨os, hos, h2.symm, by assumption, by assumption⟩
      · cases h
    · cases h
  · cases h

theorem MacAddress.parse_valid {s : List Char} {a : MacAddress}
    (h : MacAddress.parse s = some a) : a.Valid := by
  obtain ⟨os, hos, rfl, -, -⟩ := MacAddress.parse_eq_some h
  exact MacAddress.ofOctets_valid (parseHexOctets_lt hos)

/-! ## C3, C10, C6, C8 -/

/-- C3: for every prefix length `L ≤ 48` and addresses `A`, `X`, the prefix
built from `A` with length `L` matches `X` iff the top `L` bits of `X` equal
the top `L` bits of `A` (for `L = 0` both sides are trivially `0 = 0`, so a
length-0 prefix matches every address). -/
theorem C3_matches_iff_topBits (A X : MacAddress) (hA : A.Valid) (hX : X.Valid)
    (L : Nat) (hL : L ≤ 48) :
    (MacPrefix.from_parts A L).matches X = true ↔
      MacAddress.topBits L X = MacAddress.topBits L A := by
  have hw := MacPrefix.from_parts_WF hA hL
  rw [MacPrefix.matches_iff_range hw hX]
  unfold MacAddress.topBits
  rw [Nat.shiftRight_eq_div_pow, Nat.shiftRight_eq_div_pow]
  rw [MacPrefix.from_parts_base hA]
  unfold MacPrefix.size
  rw [MacPrefix.from_parts_prefix_len hA hL]
  rw [and_mask_eq_div_mul (MacAddress.to_u64_lt hA) hL]
  rw [← div_mul_eq_iff (Nat.two_pow_pos _) (Nat.mul_mod_left _ _)]
  constructor
  · intro h
    exact Nat.eq_of_mul_eq_mul_right (Nat.two_pow_pos _) h
  · intro h
    rw [h]

theorem C3_witness :
    ((⟨1, 2, 3, 0, 0, 0⟩ : MacAddress).Valid ∧ (⟨1, 2, 3, 4, 5, 6⟩ : MacAddress).Valid ∧
      24 ≤ 48) ∧
    ((MacPrefix.from_parts ⟨1, 2, 3, 0, 0, 0⟩ 24).matches ⟨1, 2, 3, 4, 5, 6⟩ = true ↔
      MacAddress.topBits 24 ⟨1, 2, 3, 4, 5, 6⟩ = MacAddress.topBits 24 ⟨1, 2, 3, 0, 0, 0⟩) :=
  ⟨⟨by decide, by decide, by decide⟩,
    C3_matches_iff_topBits ⟨1, 2, 3, 0, 0, 0⟩ ⟨1, 2, 3, 4, 5, 6⟩ (by decide) (by decide) 24
      (by decide)⟩

/-- C10: every prefix built by `from_parts` with a length of at most 48 stores
an address whose bits below the prefix length are zero, and whenever `matches`
is false the stored base address differs from the query — so the
`debug_assert!(prefix_mac != mac)` in the lookup comparator cannot fire. -/
theorem C10_from_parts_masked (m q : MacAddress) (hm : m.Valid) (hq : q.Valid)
    (L : Nat) (hL : L ≤ 48) :
    (MacPrefix.from_parts m L).base % 2 ^ (48 - L) = 0 ∧
      ((MacPrefix.from_parts m L).matches q = false → (MacPrefix.from_parts m L).mac ≠ q) := by
  have hw := MacPrefix.from_parts_WF hm hL
  constructor
  · have h := hw.2.2
    rw [MacPrefix.from_parts_prefix_len hm hL] at h
    exact h
  · intro hmatch hmac
    have hq64 : q.to_u64 = (MacPrefix.from_parts m L).base := by
      unfold MacPrefix.base
      rw [hmac]
    have hpos : 0 < (MacPrefix.from_parts m L).size := by
      unfold MacPrefix.size
      exact Nat.two_pow_pos _
    have htrue : (MacPrefix.from_parts m L).matches q = true := by
      rw [MacPrefix.matches_iff_range hw hq]
      omega
    rw [htrue] at hmatch
    exact Bool.noConfusion hmatch

theorem C10_witness :
    ((⟨1, 2, 3, 0, 0, 0⟩ : MacAddress).Valid ∧ (⟨9, 9, 9, 9, 9, 9⟩ : MacAddress).Valid ∧
      24 ≤ 48) ∧
    ((MacPrefix.from_parts ⟨1, 2, 3, 0, 0, 0⟩ 24).base % 2 ^ (48 - 24) = 0 ∧
      ((MacPrefix.from_parts ⟨1, 2, 3, 0, 0, 0⟩ 24).matches ⟨9, 9, 9, 9, 9, 9⟩ = false →
        (MacPrefix.from_parts ⟨1, 2, 3, 0, 0, 0⟩ 24).mac ≠ ⟨9, 9, 9, 9, 9, 9⟩)) :=
  ⟨⟨by decide, by decide, by decide⟩,
    C10_from_parts_masked ⟨1, 2, 3, 0, 0, 0⟩ ⟨9, 9, 9, 9, 9, 9⟩ (by decide) (by decide) 24
      (by decide)⟩

/-- C6: the `Ord` comparison of two well-formed prefixes is exactly the numeric
comparison of their masked 48-bit base addresses (the prefix length plays no
part), while structural equality holds iff both the masked address and the
length agree. -/
theorem C6_cmp_base_eq_iff (p r : MacPrefix) (hp : p.WF) (hr : r.WF) :
    MacPrefix.cmp p r = compare p.base r.base ∧
      (p = r ↔ (p.mac = r.mac ∧ p.prefix_len = r.prefix_len)) := by
  constructor
  · unfold MacPrefix.cmp
    rw [MacAddress.cmp_eq_compare (MacPrefix.mac_valid p) (MacPrefix.mac_valid r)]
    rfl
  · constructor
    · rintro rfl
      exact ⟨rfl, rfl⟩
    · rintro ⟨hmac, hlen⟩
      obtain ⟨hL1, hv1, -⟩ := hp
      obtain ⟨hL2, hv2, -⟩ := hr
      have hbase : p.base = r.base := by
        unfold MacPrefix.base
        rw [hmac]
      have hval : p.val = r.val := by
        rw [hv1, hv2, hlen, hbase]
      rcases p with ⟨v1⟩
      rcases r with ⟨v2⟩
      simpa using hval

theorem C6_witness :
    ((MacPrefix.from_parts ⟨1, 2, 3, 0, 0, 0⟩ 24).WF ∧
      (MacPrefix.from_parts ⟨1, 2, 3, 0, 0, 0⟩ 28).WF) ∧
    (MacPrefix.cmp (MacPrefix.from_parts ⟨1, 2, 3, 0, 0, 0⟩ 24)
        (MacPrefix.from_parts ⟨1, 2, 3, 0, 0, 0⟩ 28) =
      compare (MacPrefix.from_parts ⟨1, 2, 3, 0, 0, 0⟩ 24).base
        (MacPrefix.from_parts ⟨1, 2, 3, 0, 0, 0⟩ 28).base ∧
      (MacPrefix.from_parts ⟨1, 2, 3, 0, 0, 0⟩ 24 = MacPrefix.from_parts ⟨1, 2, 3, 0, 0, 0⟩ 28 ↔
        ((MacPrefix.from_parts ⟨1, 2, 3, 0, 0, 0⟩ 24).mac =
            (MacPrefix.from_parts ⟨1, 2, 3, 0, 0, 0⟩ 28).mac ∧
          (MacPrefix.from_parts ⟨1, 2, 3, 0, 0, 0⟩ 24).prefix_len =
            (MacPrefix.from_parts ⟨1, 2, 3, 0, 0, 0⟩ 28).prefix_len))) :=
  ⟨⟨by decide, by decide⟩,
    C6_cmp_base_eq_iff (MacPrefix.from_parts ⟨1, 2, 3, 0, 0, 0⟩ 24)
      (MacPrefix.from_parts ⟨1, 2, 3, 0, 0, 0⟩ 28) (by decide) (by decide)⟩

/-- C8: the address/integer conversion round-trips exactly on every in-range
address, the integer form keeps its upper 16 bits zero, and in particular the
round trip holds for every successfully parsed address text. -/
theorem C8_roundtrip (a : MacAddress) (ha : a.Valid) (s : List Char) :
    MacAddress.from_u64 a.to_u64 = a ∧ a.to_u64 < 2 ^ 48 ∧
      (∀ b, MacAddress.parse s = some b → MacAddress.from_u64 b.to_u64 = b) := by
  refine ⟨MacAddress.from_u64_to_u64 ha, MacAddress.to_u64_lt ha, ?_⟩
  intro b hb
  exact MacAddress.from_u64_to_u64 (MacAddress.parse_valid hb)

theorem C8_witness :
    (⟨0xaa, 0xbb, 0xcc, 0, 0, 0⟩ : MacAddress).Valid ∧
    (MacAddress.from_u64 (⟨0xaa, 0xbb, 0xcc, 0, 0, 0⟩ : MacAddress).to_u64 =
        ⟨0xaa, 0xbb, 0xcc, 0, 0, 0⟩ ∧
      (⟨0xaa, 0xbb, 0xcc, 0, 0, 0⟩ : MacAddress).to_u64 < 2 ^ 48 ∧
      (∀ b, MacAddress.parse ("aa:bb:cc".data) = some b →
        MacAddress.from_u64 b.to_u64 = b)) :=
  ⟨by decide, C8_roundtrip ⟨0xaa, 0xbb, 0xcc, 0, 0, 0⟩ (by decide) ("aa:bb:cc".data)⟩

/-! ## The binary-search lookup (C1) -/

/-- A successful probe of the search loop sits inside the window and its
comparator verdict is `Equal`. -/
theorem bsAux_ok {f : Oui → Ordering} {db : List Oui} :
    ∀ {fuel lo hi i : Nat}, bsAux f db fuel lo hi = Except.ok i →
      lo ≤ i ∧ i < hi ∧ f (db.getD i defaultOui) = Ordering.eq := by
  intro fuel
  induction fuel with
  | zero =>
    intro lo hi i h
    unfold bsAux at h
    cases h
  | succ n ih =>
    intro lo hi i h
    unfold bsAux at h
    split at h
    · rename_i hlt
      dsimp only at h
      split at h
      · rename_i hf
        have hr := ih h
        exact ⟨by omega, hr.2.1, hr.2.2⟩
      · rename_i hf
        have hr := ih h
        exact ⟨hr.1, by omega, hr.2.2⟩
      · rename_i hf
        injection h with h2
        subst h2
        exact ⟨by omega, by omega, hf⟩
    · cases h

/-- Completeness of the search loop: with a comparator that is monotone along
the record sequence, a window containing an `Equal` index yields a hit. -/
theorem bsAux_finds {f : Oui → Ordering} {db : List Oui}
    (hmono : ∀ i j, i ≤ j → j < db.length →
      ((f (db.getD i defaultOui) = Ordering.gt → f (db.getD j defaultOui) = Ordering.gt) ∧
        (f (db.getD j defaultOui) = Ordering.lt → f (db.getD i defaultOui) = Ordering.lt))) :
    ∀ (fuel lo hi k : Nat), lo ≤ k → k < hi → hi ≤ db.length → hi - lo ≤ fuel →
      f (db.getD k defaultOui) = Ordering.eq →
      ∃ i, bsAux f db fuel lo hi = Except.ok i := by
  intro fuel
  induction fuel with
  | zero =>
    intro lo hi k hk1 hk2 hhi hfuel hfk
    omega
  | succ n ih =>
    intro lo hi k hk1 hk2 hhi hfuel hfk
    have hlt : lo < hi := by omega
    have hmlo : lo ≤ lo + (hi - lo) / 2 := by omega
    have hmhi : lo + (hi - lo) / 2 < hi := by omega
    rcases hf : f (db.getD (lo + (hi - lo) / 2) defaultOui) with _ | _ | _
    · -- Less: the hit index is to the right of the probe
      have hkmid : lo + (hi - lo) / 2 < k := by
        by_contra hc
        push_neg at hc
        have h2 := (hmono k (lo + (hi - lo) / 2) hc (by omega)).2 hf
        cases h2.symm.trans hfk
      obtain ⟨i, hrec⟩ := ih (lo + (hi - lo) / 2 + 1) hi k (by omega) hk2 hhi (by omega) hfk
      refine ⟨i, ?_⟩
      unfold bsAux
      rw [if_pos hlt]
      dsimp only
      rw [hf]
      exact hrec
    · exact ⟨lo + (hi - lo) / 2, by
        unfold bsAux
        rw [if_pos hlt]
        dsimp only
        rw [hf]⟩
    · -- Greater: the hit index is to the left of the probe
      have hkmid : k < lo + (hi - lo) / 2 := by
        by_contra hc
        push_neg at hc
        have h2 := (hmono (lo + (hi - lo) / 2) k hc (by omega)).1 hf
        cases h2.symm.trans hfk
      obtain ⟨i, hrec⟩ := ih lo (lo + (hi - lo) / 2) k hk1 hkmid (by omega) (by omega) hfk
      refine ⟨i, ?_⟩
      unfold bsAux
      rw [if_pos hlt]
      dsimp only
      rw [hf]
      exact hrec

/-- The lookup comparator answers `Equal` exactly on a match (for a well-formed
record prefix): the numeric fallback can never answer `Equal` itself, because a
stored base address equal to the query implies a match. -/
theorem lookupCmp_eq_iff {q : MacAddress} (hq : q.Valid) {o : Oui} (hw : o.mac_prefix.WF) :
    lookupCmp q o = Ordering.eq ↔ o.mac_prefix.matches q = true := by
  unfold lookupCmp
  by_cases hm : o.mac_prefix.matches q = true
  · rw [if_pos hm]
    simp [hm]
  · rw [if_neg hm]
    constructor
    · intro hcmp
      have hv : (Oui.mac o).Valid := MacPrefix.mac_valid o.mac_prefix
      rw [MacAddress.cmp_eq_compare hv hq] at hcmp
      have heq : o.mac_prefix.base = q.to_u64 := Nat.compare_eq_eq.mp hcmp
      have hpos : 0 < o.mac_prefix.size := by
        unfold MacPrefix.size
        exact Nat.two_pow_pos _
      have htr : o.mac_prefix.matches q = true := by
        rw [MacPrefix.matches_iff_range hw hq]
        omega
      exact absurd htr hm
    · intro h
      exact absurd h hm

/-- Sortedness plus disjointness of ranges make the lookup comparator monotone
along the record sequence. -/
theorem lookupCmp_mono {db : List Oui} {q : MacAddress} (hq : q.Valid)
    (hwf : ∀ o ∈ db, o.mac_prefix.WF) (hsort : SortedByKey db) (hdisj : NoOverlap db) :
    ∀ i j, i ≤ j → j < db.length →
      ((lookupCmp q (db.getD i defaultOui) = Ordering.gt →
          lookupCmp q (db.getD j defaultOui) = Ordering.gt) ∧
        (lookupCmp q (db.getD j defaultOui) = Ordering.lt →
          lookupCmp q (db.getD i defaultOui) = Ordering.lt)) := by
  intro i j hij hj
  rcases Nat.eq_or_lt_of_le hij with rfl | hlt
  · exact ⟨id, id⟩
  have hi : i < db.length := by omega
  have hgdi : db.getD i defaultOui = db[i] := by
    rw [List.getD_eq_getElem?_getD, List.getElem?_eq_getElem hi]
    rfl
  have hgdj : db.getD j defaultOui = db[j] := by
    rw [List.getD_eq_getElem?_getD, List.getElem?_eq_getElem hj]
    rfl
  have hwi : (Oui.mac_prefix db[i]).WF := hwf _ (List.getElem_mem hi)
  have hwj : (Oui.mac_prefix db[j]).WF := hwf _ (List.getElem_mem hj)
  unfold SortedByKey at hsort
  have hs' : (Oui.mac_prefix db[i]).base ≤ (Oui.mac_prefix db[j]).base :=
    List.pairwise_iff_getElem.mp hsort i j hi hj hlt
  unfold NoOverlap at hdisj
  have hd := List.pairwise_iff_getElem.mp hdisj i j hi hj hlt
  have hpi : 0 < (Oui.mac_prefix db[i]).size := by
    unfold MacPrefix.size
    exact Nat.two_pow_pos _
  have hpj : 0 < (Oui.mac_prefix db[j]).size := by
    unfold MacPrefix.size
    exact Nat.two_pow_pos _
  have hri := MacPrefix.matches_iff_range hwi hq
  have hrj := MacPrefix.matches_iff_range hwj hq
  have hdisj2 : (Oui.mac_prefix db[i]).base + (Oui.mac_prefix db[i]).size ≤ (Oui.mac_prefix db[j]).base := by
    rcases hd with h | h
    · exact h
    · omega
  rw [hgdi, hgdj]
  constructor
  · intro hgt
    unfold lookupCmp at hgt ⊢
    by_cases hmi : (Oui.mac_prefix db[i]).matches q = true
    · rw [if_pos hmi] at hgt
      cases hgt
    · rw [if_neg hmi] at hgt
      have hvi : ((db[i]).mac).Valid := MacPrefix.mac_valid _
      rw [MacAddress.cmp_eq_compare hvi hq] at hgt
      have hxlt : q.to_u64 < (Oui.mac_prefix db[i]).base := Nat.compare_eq_gt.mp hgt
      have hmj : ¬((Oui.mac_prefix db[j]).matches q = true) := by
        intro hc
        have hcr := hrj.mp hc
        omega
      rw [if_neg hmj]
      have hvj : ((db[j]).mac).Valid := MacPrefix.mac_valid _
      rw [MacAddress.cmp_eq_compare hvj hq]
      exact Nat.compare_eq_gt.mpr (show q.to_u64 < (Oui.mac_prefix db[j]).base by omega)
  · intro hlt2
    unfold lookupCmp at hlt2 ⊢
    by_cases hmj : (Oui.mac_prefix db[j]).matches q = true
    · rw [if_pos hmj] at hlt2
      cases hlt2
    · rw [if_neg hmj] at hlt2
      have hvj : ((db[j]).mac).Valid := MacPrefix.mac_valid _
      rw [MacAddress.cmp_eq_compare hvj hq] at hlt2
      have hjx : (Oui.mac_prefix db[j]).base < q.to_u64 := Nat.compare_eq_lt.mp hlt2
      have hmi : ¬((Oui.mac_prefix db[i]).matches q = true) := by
        intro hc
        have hcr := hri.mp hc
        omega
      rw [if_neg hmi]
      have hvi : ((db[i]).mac).Valid := MacPrefix.mac_valid _
      rw [MacAddress.cmp_eq_compare hvi hq]
      exact Nat.compare_eq_lt.mpr (show (Oui.mac_prefix db[i]).base < q.to_u64 by omega)

/-- C1: over a database sorted ascending by address key whose covered ranges
never overlap, the lookup's binary search returns a hit index whose record
matches the query whenever it returns a hit at all, and it returns a hit
exactly when some record in the sequence matches the query. -/
theorem C1_lookup_hit_iff (db : List Oui) (q : MacAddress) (hq : q.Valid)
    (hwf : ∀ o ∈ db, o.mac_prefix.WF) (hsort : SortedByKey db) (hdisj : NoOverlap db) :
    (∀ i, lookup db q = Except.ok i →
      ∃ h : i < db.length, (Oui.mac_prefix (db.get ⟨i, h⟩)).matches q = true) ∧
    ((∃ i, lookup db q = Except.ok i) ↔ ∃ o ∈ db, o.mac_prefix.matches q = true) := by
  have hmono := lookupCmp_mono hq hwf hsort hdisj
  have part1 : ∀ i, lookup db q = Except.ok i →
      ∃ h : i < db.length, (Oui.mac_prefix (db.get ⟨i, h⟩)).matches q = true := by
    intro i hok
    unfold lookup binary_search_by at hok
    obtain ⟨hlo, hhi, hfeq⟩ := bsAux_ok hok
    refine ⟨hhi, ?_⟩
    have hgd : db.getD i defaultOui = db[i] := by
      rw [List.getD_eq_getElem?_getD, List.getElem?_eq_getElem hhi]
      rfl
    rw [hgd] at hfeq
    have hwi : (Oui.mac_prefix db[i]).WF := hwf _ (List.getElem_mem hhi)
    have hres := (lookupCmp_eq_iff hq hwi).mp hfeq
    rw [List.get_eq_getElem]
    exact hres
  refine ⟨part1, ?_, ?_⟩
  · rintro ⟨i, hok⟩
    obtain ⟨h, hm⟩ := part1 i hok
    exact ⟨db.get ⟨i, h⟩, List.get_mem db i h, hm⟩
  · rintro ⟨o, ho, hm⟩
    obtain ⟨⟨k, hk⟩, rfl⟩ := List.mem_iff_get.mp ho
    have hgd : db.getD k defaultOui = db.get ⟨k, hk⟩ := by
      rw [List.getD_eq_getElem?_getD, List.getElem?_eq_getElem hk, List.get_eq_getElem]
      rfl
    have hfeq : lookupCmp q (db.getD k defaultOui) = Ordering.eq := by
      rw [hgd]
      unfold lookupCmp
      rw [if_pos hm]
    unfold lookup binary_search_by
    exact bsAux_finds hmono db.length 0 db.length k (by omega) hk (Nat.le_refl _)
      (by omega) hfeq

theorem C1_witness :
    (∃ i, lookup
        [(⟨MacPrefix.from_parts ⟨1, 2, 3, 0, 0, 0⟩ 24, [], []⟩ : Oui),
          (⟨MacPrefix.from_parts ⟨1, 2, 5, 0, 0, 0⟩ 24, [], []⟩ : Oui)]
        ⟨1, 2, 3, 9, 9, 9⟩ = Except.ok i) ↔
      ∃ o ∈ [(⟨MacPrefix.from_parts ⟨1, 2, 3, 0, 0, 0⟩ 24, [], []⟩ : Oui),
          (⟨MacPrefix.from_parts ⟨1, 2, 5, 0, 0, 0⟩ 24, [], []⟩ : Oui)],
        o.mac_prefix.matches ⟨1, 2, 3, 9, 9, 9⟩ = true :=
  (C1_lookup_hit_iff _ _ (by decide) (by decide)
    (by unfold SortedByKey; decide) (by unfold NoOverlap; decide)).2

/-! ## C2 and C4 -/

/-- C2 (evidence for the code bug): the only validation the source applies to
the `/`-suffixed length text is `p.parse::<u8>()`, which accepts every decimal
value up to 255.  For the input `"aa:bb:cc/49"` the length stage succeeds with
49 and the address portion parses, so the out-of-range length reaches
`MacPrefix::mask`, whose `debug_assert!(prefix_len <= 48)` it violates —
`parse` does not return `None` as the claim requires.  An omitted length
defaults to 24. -/
theorem C2_length_gap :
    MacPrefix.parseLen ("aa:bb:cc/49".data) = some ("aa:bb:cc".data, 49) ∧
      ¬(49 ≤ 48) ∧
      (MacAddress.parse ("aa:bb:cc".data)).isSome = true ∧
      MacPrefix.parseLen ("aa:bb:cc".data) = some ("aa:bb:cc".data, 24) := by
  refine ⟨by decide, by decide, by decide, by decide⟩

/-- C4: after any `save` call the cache file either holds exactly the complete
encoded snapshot (and the call returned `Ok`) or is absent (and the call
returned `Err`); a failed write deletes the partial file, so a subsequent
`load` never observes truncated bytes. -/
theorem C4_save_complete_or_absent (att : WriteAttempt) (fs : FsFile) :
    (∃ bytes, att = WriteAttempt.success bytes ∧
      (Cache.save att fs).1 = some bytes ∧ (Cache.save att fs).2 = Except.ok ()) ∨
    ((Cache.save att fs).1 = none ∧ Cache.load (Cache.save att fs).1 = none ∧
      ∃ w, att = WriteAttempt.failAfter w ∧ (Cache.save att fs).2 = Except.error ()) := by
  cases att with
  | success bytes =>
    left
    exact ⟨bytes, rfl, by simp [Cache.save, fsCreate, fsWrite], rfl⟩
  | failAfter w =>
    right
    exact ⟨rfl, rfl, w, rfl, rfl⟩

/-! ## C5: the accepted address grammar -/

theorem mapM_hex_eq {cs : List Char} {ds : List Nat}
    (h : cs.mapM hexDigitVal? = some ds) :
    ds = cs.map (fun c => (hexDigitVal? c).getD 0) ∧
      ∀ c ∈ cs, (hexDigitVal? c).isSome = true := by
  induction cs generalizing ds with
  | nil =>
    simp only [List.mapM_nil] at h
    injection h with h2
    subst h2
    exact ⟨rfl, by simp⟩
  | cons c rest ih =>
    rw [List.mapM_cons] at h
    rcases h1 : hexDigitVal? c with _ | v <;> rw [h1] at h
    · simp at h
    · rcases h2 : rest.mapM hexDigitVal? with _ | vs <;> rw [h2] at h
      · simp at h
      · simp only [Option.pure_def, Option.bind_some, Option.bind_eq_bind] at h
        injection h with h3
        obtain ⟨hmap, hall⟩ := ih h2
        subst h3
        constructor
        · simp only [List.map_cons, h1, Option.getD_some]
          rw [hmap]
        · intro d hd
          rcases List.mem_cons.mp hd with rfl | hd
          · simp [h1]
          · exact hall d hd

theorem mapM_hex_of_all {cs : List Char}
    (h : ∀ c ∈ cs, (hexDigitVal? c).isSome = true) :
    cs.mapM hexDigitVal? = some (cs.map (fun c => (hexDigitVal? c).getD 0)) := by
  induction cs with
  | nil => rfl
  | cons c rest ih =>
    rw [List.mapM_cons]
    have hc := h c (List.mem_cons_self c rest)
    rcases h1 : hexDigitVal? c with _ | v
    · rw [h1] at hc
      cases hc
    · rw [ih (fun d hd => h d (List.mem_cons_of_mem c hd))]
      simp [h1]

theorem parseHexOctet_isSome_iff {cs : List Char} :
    (parseHexOctet cs).isSome = true ↔ amendedOctetOk cs = true := by
  unfold parseHexOctet amendedOctetOk
  constructor
  · intro h
    rcases h1 : cs.mapM hexDigitVal? with _ | ds <;> rw [h1] at h
    · cases h
    · dsimp only at h
      obtain ⟨hmap, hall⟩ := mapM_hex_eq h1
      by_cases he : ds.isEmpty
      · rw [if_pos he] at h
        cases h
      · rw [if_neg he] at h
        split at h
        · rename_i hv
          subst hmap
          rw [List.foldl_map] at hv
          simp only [Bool.and_eq_true, Bool.not_eq_true', decide_eq_true_eq]
          refine ⟨⟨?_, ?_⟩, hv⟩
          · rcases cs with _ | ⟨c, rest⟩
            · simp at he
            · rfl
          · rw [List.all_eq_true]
            exact hall
        · cases h
  · intro h
    simp only [Bool.and_eq_true, Bool.not_eq_true', decide_eq_true_eq,
      List.all_eq_true] at h
    obtain ⟨⟨hne, hall⟩, hv⟩ := h
    rw [mapM_hex_of_all hall]
    have hnd : ¬((cs.map fun c => (hexDigitVal? c).getD 0).isEmpty = true) := by
      rcases cs with _ | ⟨c, rest⟩
      · cases hne
      · simp
    dsimp only
    rw [if_neg hnd]
    rw [List.foldl_map]
    rw [if_pos hv]
    rfl

theorem parseHexOctets_isSome_iff {segs : List (List Char)} :
    (parseHexOctets segs).isSome = true ↔
      ∀ seg ∈ segs, (parseHexOctet seg).isSome = true := by
  induction segs with
  | nil => simp [parseHexOctets]
  | cons s rest ih =>
    unfold parseHexOctets
    constructor
    · intro h
      rcases h1 : parseHexOctet s with _ | v <;> rw [h1] at h
      · cases h
      · rcases h2 : parseHexOctets rest with _ | vs <;> rw [h2] at h
        · cases h
        · intro seg hseg
          rcases List.mem_cons.mp hseg with rfl | hseg
          · rw [h1]
            rfl
          · exact (ih.mp (by rw [h2]; rfl)) seg hseg
    · intro h
      have hs := h s (List.mem_cons_self s rest)
      rcases h1 : parseHexOctet s with _ | v
      · rw [h1] at hs
        cases hs
      · have hrest := ih.mpr (fun seg hseg => h seg (List.mem_cons_of_mem s hseg))
        rcases h2 : parseHexOctets rest with _ | vs
        · rw [h2] at hrest
          cases hrest
        · rfl

theorem parseHexOctets_length {segs : List (List Char)} {os : List Nat}
    (h : parseHexOctets segs = some os) : os.length = segs.length := by
  induction segs generalizing os with
  | nil =>
    unfold parseHexOctets at h
    injection h with h2
    subst h2
    rfl
  | cons s rest ih =>
    unfold parseHexOctets at h
    rcases h1 : parseHexOctet s with _ | v <;> rw [h1] at h
    · cases h
    · rcases h2 : parseHexOctets rest with _ | vs <;> rw [h2] at h
      · cases h
      · injection h with h3
        subst h3
        simp [ih h2]

theorem all_hexOrColon_iff {s : List Char} :
    (s.all fun c => (hexDigitVal? c).isSome || c = ':') = true ↔
      ∀ seg ∈ splitColon s, ∀ c ∈ seg, (hexDigitVal? c).isSome = true := by
  induction s with
  | nil =>
    simp [splitColon]
  | cons c rest ih =>
    rw [List.all_cons]
    unfold splitColon
    by_cases hc : c = ':'
    · rw [if_pos hc]
      subst hc
      simp only [Bool.and_eq_true, Bool.or_eq_true, decide_eq_true_eq]
      constructor
      · rintro ⟨-, hrest⟩ seg hseg
        rcases List.mem_cons.mp hseg with rfl | hseg
        · intro d hd
          cases hd
        · exact ih.mp hrest seg hseg
      · intro h
        refine ⟨Or.inr trivial, ih.mpr ?_⟩
        intro seg hseg
        exact h seg (List.mem_cons_of_mem _ hseg)
    · rw [if_neg hc]
      rcases hsp : splitColon rest with _ | ⟨s0, ss0⟩
      · -- splitColon never returns []
        exfalso
        revert hsp
        clear ih
        induction rest with
        | nil => intro h; cases h
        | cons d tl ihr =>
          intro h
          unfold splitColon at h
          split at h
          · cases h
          · split at h
            · rename_i hm
              exact ihr hm
            · cases h
      · simp only [Bool.and_eq_true, Bool.or_eq_true, decide_eq_true_eq]
        rw [ih, hsp]
        constructor
        · rintro ⟨hcx, hrest⟩ seg hseg
          have hchex : (hexDigitVal? c).isSome = true := by
            rcases hcx with h | h
            · exact h
            · exact absurd h hc
          rcases List.mem_cons.mp hseg with rfl | hseg
          · intro d hd
            rcases List.mem_cons.mp hd with rfl | hd
            · exact hchex
            · exact hrest s0 (List.mem_cons_self s0 ss0) d hd
          · exact hrest seg (List.mem_cons_of_mem s0 hseg)
        · intro h
          have hcs := h (c :: s0) (List.mem_cons_self _ ss0)
          refine ⟨Or.inl (hcs c (List.mem_cons_self c s0)), ?_⟩
          intro seg hseg
          rcases List.mem_cons.mp hseg with rfl | hseg
          · intro d hd
            exact hcs d (List.mem_cons_of_mem c hd)
          · exact h seg (List.mem_cons_of_mem _ hseg)

/-- C5 counterexample: the input `"0ff"` is a single octet of three hex digits
— outside the claim's "1-2 hex digits each" grammar — yet `parse` accepts it
(`u8::from_str_radix` tolerates leading zeros). -/
theorem C5_counterexample :
    (MacAddress.parse ("0ff".data)).isSome = true ∧ specAddrOk ("0ff".data) = false := by
  refine ⟨by decide, by decide⟩

/-- C5 as amended: `parse` succeeds exactly on 1-6 colon-separated octets,
each a nonempty run of hex digits whose value fits in a byte (leading zeros
allowed); and the trailing octets not covered by the given segments are zero
in the result. -/
theorem C5_amended_parse_iff (s : List Char) :
    ((MacAddress.parse s).isSome = true ↔
      ((splitColon s).length ≤ 6 ∧ ∀ seg ∈ splitColon s, amendedOctetOk seg = true)) ∧
    (∀ a, MacAddress.parse s = some a → ∀ j : Fin 6, (splitColon s).length ≤ j.val →
      a.octet j = 0) := by
  constructor
  · constructor
    · intro h
      obtain ⟨a, ha⟩ := Option.isSome_iff_exists.mp h
      obtain ⟨os, hos, -, hlen, -⟩ := MacAddress.parse_eq_some ha
      refine ⟨hlen, ?_⟩
      intro seg hseg
      rw [← parseHexOctet_isSome_iff]
      exact parseHexOctets_isSome_iff.mp (by rw [hos]; rfl) seg hseg
    · rintro ⟨hlen, hsegs⟩
      have hall : (s.all fun c => (hexDigitVal? c).isSome || c = ':') = true := by
        rw [all_hexOrColon_iff]
        intro seg hseg c hc
        have := hsegs seg hseg
        unfold amendedOctetOk at this
        simp only [Bool.and_eq_true, Bool.not_eq_true', decide_eq_true_eq,
          List.all_eq_true] at this
        exact this.1.2 c hc
      have hoct : (parseHexOctets (splitColon s)).isSome = true := by
        rw [parseHexOctets_isSome_iff]
        intro seg hseg
        rw [parseHexOctet_isSome_iff]
        exact hsegs seg hseg
      obtain ⟨os, hos⟩ := Option.isSome_iff_exists.mp hoct
      unfold MacAddress.parse
      rw [if_pos hall]
      dsimp only
      rw [if_pos hlen, hos]
      rfl
  · intro a ha j hj
    obtain ⟨os, hos, rfl, hlen, -⟩ := MacAddress.parse_eq_some ha
    have holen : os.length = (splitColon s).length := parseHexOctets_length hos
    rcases j with ⟨j, hj6⟩
    have hj' : (splitColon s).length ≤ j := hj
    have hnone : os.getD j 0 = 0 := by
      rw [List.getD_eq_getElem?_getD, List.getElem?_eq_none (by omega)]
      rfl
    interval_cases j <;>
      simp only [MacAddress.octet, MacAddress.ofOctets] <;> exact hnone

theorem C5_amended_witness :
    (MacAddress.parse ("aa:bb:cc".data)).isSome = true :=
  (C5_amended_parse_iff ("aa:bb:cc".data)).1.mpr (by decide)

/-! ## C7: the builder's sort -/

theorem Oui.cmp_eq_key_compare (a b : Oui) :
    Oui.cmp a b = compare a.mac.to_u64 b.mac.to_u64 := by
  unfold Oui.cmp MacPrefix.cmp
  exact MacAddress.cmp_eq_compare (MacPrefix.mac_valid _) (MacPrefix.mac_valid _)

theorem ouiLE_iff (a b : Oui) : ouiLE a b = true ↔ a.mac.to_u64 ≤ b.mac.to_u64 := by
  unfold ouiLE
  rw [Oui.cmp_eq_key_compare]
  rcases h : compare a.mac.to_u64 b.mac.to_u64 with _ | _ | _
  · constructor
    · intro _
      exact Nat.le_of_lt (Nat.compare_eq_lt.mp h)
    · intro _
      rfl
  · constructor
    · intro _
      exact Nat.le_of_eq (Nat.compare_eq_eq.mp h)
    · intro _
      rfl
  · constructor
    · intro hh
      cases hh
    · intro hle
      have := Nat.compare_eq_gt.mp h
      omega

/-- C7: the database builder's stable ascending sort by address key — the
output is sorted (every earlier record's key is at most every later one's) and
each key class appears in the output in exactly its input order. -/
theorem C7_buildDb_sorted_stable (lines : List (List Char)) :
    SortedByKey (buildDb lines) ∧
      ∀ K : MacAddress, (buildDb lines).filter (fun o => decide (o.mac = K)) =
        (lines.filterMap Oui.from_manuf).filter (fun o => decide (o.mac = K)) := by
  have htrans : ∀ (a b c : Oui), ouiLE a b = true → ouiLE b c = true → ouiLE a c = true := by
    intro a b c h1 h2
    rw [ouiLE_iff] at h1 h2 ⊢
    omega
  have htotal : ∀ (a b : Oui), (ouiLE a b || ouiLE b a) = true := by
    intro a b
    rw [Bool.or_eq_true, ouiLE_iff, ouiLE_iff]
    omega
  constructor
  · unfold SortedByKey buildDb
    have hs := List.sorted_mergeSort htrans htotal (lines.filterMap Oui.from_manuf)
    exact hs.imp (fun h => (ouiLE_iff _ _).mp h)
  · intro K
    have hpair : ((lines.filterMap Oui.from_manuf).filter
        (fun o => decide (o.mac = K))).Pairwise (fun a b => ouiLE a b = true) := by
      apply List.pairwise_of_forall_mem_list
      intro a ha b hb
      have ha' := List.mem_filter.mp ha
      have hb' := List.mem_filter.mp hb
      have hKa : a.mac = K := of_decide_eq_true ha'.2
      have hKb : b.mac = K := of_decide_eq_true hb'.2
      rw [ouiLE_iff, hKa, hKb]
    have hsub : List.Sublist
        ((lines.filterMap Oui.from_manuf).filter (fun o => decide (o.mac = K)))
        ((lines.filterMap Oui.from_manuf).mergeSort ouiLE) :=
      List.sublist_mergeSort htrans htotal hpair
        (List.filter_sublist (lines.filterMap Oui.from_manuf))
    have hsub2 : List.Sublist
        ((lines.filterMap Oui.from_manuf).filter (fun o => decide (o.mac = K)))
        (((lines.filterMap Oui.from_manuf).mergeSort ouiLE).filter
          (fun o => decide (o.mac = K))) := by
      have hff := hsub.filter (fun o => decide (o.mac = K))
      rwa [List.filter_eq_self.mpr (fun a ha => (List.mem_filter.mp ha).2)] at hff
    have hlen : (((lines.filterMap Oui.from_manuf).mergeSort ouiLE).filter
          (fun o => decide (o.mac = K))).length =
        ((lines.filterMap Oui.from_manuf).filter (fun o => decide (o.mac = K))).length :=
      ((List.mergeSort_perm (lines.filterMap Oui.from_manuf) ouiLE).filter _).length_eq
    unfold buildDb
    exact (hsub2.eq_of_length hlen.symm).symm

/-! ## C9: the manuf line parser -/

theorem head?_dropWhile_false {α : Type} {p : α → Bool} {l : List α} {c : α}
    (h : (l.dropWhile p).head? = some c) : p c = false := by
  have h2 := List.head?_dropWhile_not p l
  rw [h] at h2
  exact h2

theorem takeWhile_ne_nil_of_head {α : Type} {p : α → Bool} {l : List α} {c : α}
    (h : l.head? = some c) (hp : p c = true) : l.takeWhile p ≠ [] := by
  rcases l with _ | ⟨x, xs⟩
  · cases h
  · simp only [List.head?_cons] at h
    injection h with h2
    subst h2
    simp [List.takeWhile_cons, hp]

/-- A successful `findIdx?` splits the list at the first match: the taken part
is the maximal non-matching run and the dropped part starts with a match. -/
theorem findIdx?_take_drop {α : Type} {p : α → Bool} :
    ∀ {l : List α} {i : Nat}, l.findIdx? p = some i →
      l.take i = l.takeWhile (fun c => !(p c)) ∧
      l.drop i = l.dropWhile (fun c => !(p c)) ∧
      ∃ c, (l.dropWhile (fun c => !(p c))).head? = some c ∧ p c = true := by
  intro l
  induction l with
  | nil =>
    intro i h
    simp at h
  | cons x xs ih =>
    intro i h
    rw [List.findIdx?_cons] at h
    by_cases hp : p x = true
    · rw [if_pos hp] at h
      injection h with h2
      subst h2
      refine ⟨by simp [List.takeWhile_cons, hp], by simp [List.dropWhile_cons, hp],
        x, by simp [List.dropWhile_cons, hp], hp⟩
    · have hp' : p x = false := by
        revert hp
        cases p x <;> simp
      rw [if_neg hp, List.findIdx?_succ] at h
      rcases hx : xs.findIdx? p with _ | i1 <;> rw [hx] at h
      · simp at h
      · simp only [Option.map_some'] at h
        injection h with h2
        subst h2
        obtain ⟨h1, h2, c, hc, hpc⟩ := ih hx
        refine ⟨?_, ?_, c, ?_, hpc⟩
        · simp [List.take_succ_cons, List.takeWhile_cons, hp', h1]
        · simp [List.drop_succ_cons, List.dropWhile_cons, hp', h2]
        · simp only [List.dropWhile_cons, hp', Bool.not_false, if_true]
          exact hc

/-- `findIdx?` on a run of non-matches followed by a match finds exactly the
length of the run. -/
theorem findIdx?_append_start {α : Type} {p : α → Bool} :
    ∀ {xs ys : List α} {c : α}, (∀ x ∈ xs, p x = false) → ys.head? = some c →
      p c = true → (xs ++ ys).findIdx? p = some xs.length := by
  intro xs
  induction xs with
  | nil =>
    intro ys c hxs hc hpc
    rcases ys with _ | ⟨y, ys1⟩
    · cases hc
    · simp only [List.head?_cons] at hc
      injection hc with h2
      subst h2
      simp [List.findIdx?_cons, hpc]
  | cons x xs1 ih =>
    intro ys c hxs hc hpc
    have hpx : p x = false := hxs x (List.mem_cons_self x xs1)
    rw [List.cons_append, List.findIdx?_cons, if_neg (by simp [hpx]), List.findIdx?_succ,
      ih (fun y hy => hxs y (List.mem_cons_of_mem x hy)) hc hpc]
    rfl

/-- C9: `from_manuf` is total (`Option`-valued) and fully characterized: a
comment line yields no record; a line yields a record exactly when, after
trimming leading whitespace and excluding comments, it decomposes into a
parseable prefix token, a whitespace run, a short-name token, a whitespace run,
and a non-empty remainder starting with non-whitespace — the remainder
(including any embedded whitespace) being the long name and the second token
the short name.  A line with fewer than three whitespace-separated segments
admits no such decomposition, so it yields no record, as the two concrete
examples illustrate. -/
theorem C9_from_manuf_characterization (s : List Char) :
    ((s.dropWhile isWs).head? = some '#' → Oui.from_manuf s = none) ∧
    (∀ o : Oui, Oui.from_manuf s = some o ↔
      (¬((s.dropWhile isWs).head? = some '#') ∧
        ∃ w1 g1 w2 g2 c,
          s.dropWhile isWs = w1 ++ g1 ++ w2 ++ g2 ++ o.long_name ∧
          w1 ≠ [] ∧ (∀ x ∈ w1, isWs x = false) ∧
          g1 ≠ [] ∧ (∀ x ∈ g1, isWs x = true) ∧
          w2 ≠ [] ∧ (∀ x ∈ w2, isWs x = false) ∧
          g2 ≠ [] ∧ (∀ x ∈ g2, isWs x = true) ∧
          o.long_name.head? = some c ∧ isWs c = false ∧
          MacPrefix.parse w1 = some o.mac_prefix ∧ o.short_name = w2)) ∧
    Oui.from_manuf ("00:50:F1           Maxlinear       Maxlinear, Inc".data) =
      some ⟨MacPrefix.from_parts ⟨0x00, 0x50, 0xf1, 0, 0, 0⟩ 24,
        "Maxlinear".data, "Maxlinear, Inc".data⟩ ∧
    Oui.from_manuf ("aa:bb:cc OnlyTwoSegments".data) = none := by
  refine ⟨?_, ?_, by decide, by decide⟩
  · intro hc
    unfold Oui.from_manuf
    dsimp only
    rw [if_pos hc]
  · intro o
    constructor
    · intro ho
      unfold Oui.from_manuf at ho
      dsimp only at ho
      by_cases hcm : (s.dropWhile isWs).head? = some '#'
      · rw [if_pos hcm] at ho
        cases ho
      · rw [if_neg hcm] at ho
        refine ⟨hcm, ?_⟩
        rcases hf1 : (s.dropWhile isWs).findIdx? isWs with _ | i <;> rw [hf1] at ho
        · cases ho
        · dsimp only at ho
          rcases hp : MacPrefix.parse ((s.dropWhile isWs).take i) with _ | mp <;>
            rw [hp] at ho
          · cases ho
          · dsimp only at ho
            rcases hf2 : ((s.dropWhile isWs).drop i).findIdx? (fun c => !isWs c)
              with _ | j <;> rw [hf2] at ho
            · cases ho
            · dsimp only at ho
              rcases hf3 : (((s.dropWhile isWs).drop i).drop j).findIdx? isWs
                with _ | k <;> rw [hf3] at ho
              · cases ho
              · dsimp only at ho
                rcases hf4 : ((((s.dropWhile isWs).drop i).drop j).drop k).findIdx?
                    (fun c => !isWs c) with _ | m <;> rw [hf4] at ho
                · cases ho
                · dsimp only at ho
                  injection ho with ho2
                  subst ho2
                  dsimp only
                  obtain ⟨A1, B1, c1, hc1, hpc1⟩ := findIdx?_take_drop hf1
                  obtain ⟨A2, B2, c2, hc2, hpc2⟩ := findIdx?_take_drop hf2
                  obtain ⟨A3, B3, c3, hc3, hpc3⟩ := findIdx?_take_drop hf3
                  obtain ⟨A4, B4, c4, hc4, hpc4⟩ := findIdx?_take_drop hf4
                  have hTne : s.dropWhile isWs ≠ [] := by
                    intro he
                    rw [he] at hf1
                    simp at hf1
                  obtain ⟨c0, T1, hT⟩ := List.exists_cons_of_ne_nil hTne
                  have hc0 : isWs c0 = false :=
                    head?_dropWhile_false (by rw [hT]; rfl)
                  refine ⟨(s.dropWhile isWs).take i, ((s.dropWhile isWs).drop i).take j,
                    (((s.dropWhile isWs).drop i).drop j).take k,
                    ((((s.dropWhile isWs).drop i).drop j).drop k).take m, c4,
                    ?_, ?_, ?_, ?_, ?_, ?_, ?_, ?_, ?_, ?_, ?_, hp, rfl⟩
                  · simp only [List.append_assoc]
                    rw [List.take_append_drop, List.take_append_drop,
                      List.take_append_drop, List.take_append_drop]
                  · rw [A1]
                    refine takeWhile_ne_nil_of_head (c := c0) (by rw [hT]; rfl) ?_
                    simp [hc0]
                  · rw [A1]
                    intro x hx
                    have := List.mem_takeWhile_imp hx
                    simpa using this
                  · rw [A2]
                    rw [← B1] at hc1
                    refine takeWhile_ne_nil_of_head (c := c1) hc1 ?_
                    simp [hpc1]
                  · rw [A2]
                    intro x hx
                    have := List.mem_takeWhile_imp hx
                    simpa using this
                  · rw [A3]
                    rw [← B2] at hc2
                    refine takeWhile_ne_nil_of_head (c := c2) hc2 ?_
                    simpa using hpc2
                  · rw [A3]
                    intro x hx
                    have := List.mem_takeWhile_imp hx
                    simpa using this
                  · rw [A4]
                    rw [← B3] at hc3
                    refine takeWhile_ne_nil_of_head (c := c3) hc3 ?_
                    simp [hpc3]
                  · rw [A4]
                    intro x hx
                    have := List.mem_takeWhile_imp hx
                    simpa using this
                  · rw [B4]
                    exact hc4
                  · simpa using hpc4
    · rintro ⟨hcm, w1, g1, w2, g2, c, ht, hw1ne, hw1, hg1ne, hg1, hw2ne, hw2,
        hg2ne, hg2, hlhead, hlc, hparse, hshort⟩
      unfold Oui.from_manuf
      dsimp only
      rw [if_neg hcm]
      simp only [List.append_assoc] at ht
      obtain ⟨d1, g1', hg1eq⟩ := List.exists_cons_of_ne_nil hg1ne
      obtain ⟨d2, w2', hw2eq⟩ := List.exists_cons_of_ne_nil hw2ne
      obtain ⟨d3, g2', hg2eq⟩ := List.exists_cons_of_ne_nil hg2ne
      have hf1 : (s.dropWhile isWs).findIdx? isWs = some w1.length := by
        rw [ht]
        refine findIdx?_append_start (fun x hx => hw1 x hx) (c := d1) ?_ ?_
        · rw [hg1eq]
          rfl
        · exact hg1 d1 (by rw [hg1eq]; exact List.mem_cons_self d1 g1')
      rw [hf1]
      dsimp only
      rw [ht, List.take_left, List.drop_left, hparse]
      dsimp only
      have hf2 : (g1 ++ (w2 ++ (g2 ++ o.long_name))).findIdx? (fun x => !isWs x) =
          some g1.length := by
        refine findIdx?_append_start (c := d2) ?_ ?_ ?_
        · intro x hx
          simp [hg1 x hx]
        · rw [hw2eq]
          rfl
        · simp [hw2 d2 (by rw [hw2eq]; exact List.mem_cons_self d2 w2')]
      rw [hf2]
      dsimp only
      rw [List.drop_left]
      have hf3 : (w2 ++ (g2 ++ o.long_name)).findIdx? isWs = some w2.length := by
        refine findIdx?_append_start (fun x hx => hw2 x hx) (c := d3) ?_ ?_
        · rw [hg2eq]
          rfl
        · exact hg2 d3 (by rw [hg2eq]; exact List.mem_cons_self d3 g2')
      rw [hf3]
      dsimp only
      rw [List.take_left, List.drop_left]
      have hf4 : (g2 ++ o.long_name).findIdx? (fun x => !isWs x) = some g2.length := by
        refine findIdx?_append_start (c := c) ?_ hlhead ?_
        · intro x hx
          simp [hg2 x hx]
        · simp [hlc]
      rw [hf4]
      dsimp only
      rw [List.drop_left, ← hshort]

theorem C9_witness : Oui.from_manuf ("# foo bar".data) = none :=
  (C9_from_manuf_characterization ("# foo bar".data)).1 (by decide)
